import Mathlib

/-!
Verification of the pgsql delta compiler (edgedb repository).

This file gives a shallow embedding, in Lean 4, of the parts of
`edgedb/server/pgsql/delta.py` and `edgedb/lang/schema/types.py` that the
frozen claims are about, and proves or refutes each claim against the
embedding.  Every definition is translated from the Python source; a few
auxiliary semantics (the dbops condition evaluation and helper naming
functions, which live in modules outside this repository snapshot) are
modelled from the specification and are marked as such in their doc
comments.
-/

/-! ## Section 1: Definitions -/

namespace Sched

/-- A leaf physical operation.  In the source every non-`MetaCommand`
member of `pgops` carries an integer `priority` attribute (default 0);
`opid` stands for the identity of the operation (its rendered DDL). -/
structure PhysOp where
  priority : Int
  opid : Nat
deriving DecidableEq, Repr

/-- A member of a command's `pgops` collection: either a leaf physical
operation or a nested `MetaCommand` with its own `pgops`
(`delta.py`, `MetaCommand`). -/
inductive PgCmd where
  | phys : PhysOp → PgCmd
  | meta : List PgCmd → PgCmd

/-- One step of `_serialize_ops` queue insertion (`delta.py` lines
2621-2624): `queue = queues.get(op.priority); if not queue:
queues[op.priority] = queue = []; queue.append(op)`.  Python dicts keep
insertion order, so a fresh priority key is appended at the end and an
existing key keeps its position. -/
def addToQueues : List (Int × List PhysOp) → PhysOp → List (Int × List PhysOp)
  | [], op => [(op.priority, [op])]
  | (p, q) :: qs, op =>
      if p = op.priority then (p, q ++ [op]) :: qs
      else (p, q) :: addToQueues qs op

/-- `AlterRealm._serialize_ops` (`delta.py` lines 2616-2624): walk the
`pgops` of a command in order; a nested `MetaCommand` is recursed into,
a leaf operation is appended to the queue of its priority. -/
def serializeList : List PgCmd → List (Int × List PhysOp) → List (Int × List PhysOp)
  | [], qs => qs
  | .phys op :: rest, qs => serializeList rest (addToQueues qs op)
  | .meta ops :: rest, qs => serializeList rest (serializeList ops qs)

/-- `AlterRealm.serialize_ops` (`delta.py` lines 2610-2614): build the
priority queues from the root command's `pgops`, sort the queues by
priority key ascending, and chain them.  The argument is the root
command's `pgops` list. -/
def serialize_ops (root : List PgCmd) : List PhysOp :=
  ((serializeList root []).mergeSort (fun a b => decide (a.1 ≤ b.1))).flatMap (fun q => q.2)

/-- Discovery order of the leaf operations: depth-first, left to right,
exactly the order in which `_serialize_ops` encounters them. -/
def flattenOps : List PgCmd → List PhysOp
  | [] => []
  | .phys op :: rest => op :: flattenOps rest
  | .meta ops :: rest => flattenOps ops ++ flattenOps rest

/-- The queue stored for priority `p` (Python `queues.get(p)`, empty when
absent). -/
def bucket (qs : List (Int × List PhysOp)) (p : Int) : List PhysOp :=
  (qs.lookup p).getD []

/-- Well-formedness of the queue map: every queued operation sits in the
queue of its own priority. -/
def QWF (qs : List (Int × List PhysOp)) : Prop :=
  ∀ e ∈ qs, ∀ op ∈ e.2, op.priority = e.1

end Sched

namespace Upgrade

/-- `BACKEND_FORMAT_VERSION` (`delta.py` line 55). -/
def BACKEND_FORMAT_VERSION : Nat := 30

/-- Observable events of `UpgradeBackend.execute`: running one upgrade
step, and persisting a format version (the `update_backend_info` merge,
`delta.py` lines 4047-4054, writes `BACKEND_FORMAT_VERSION`). -/
inductive UpgradeEvent where
  | step : Nat → UpgradeEvent
  | persist : Nat → UpgradeEvent
deriving DecidableEq, Repr

/-- `UpgradeBackend.execute` (`delta.py` lines 2634-2639): for `version`
in `range(actual_version, current_version)` run
`update_to_version_{version+1}`, then execute `update_backend_info()`. -/
def UpgradeBackend.execute (actual_version : Nat) : List UpgradeEvent :=
  (List.range' actual_version (BACKEND_FORMAT_VERSION - actual_version)).map
    (fun v => UpgradeEvent.step (v + 1))
  ++ [UpgradeEvent.persist BACKEND_FORMAT_VERSION]

/-- `UpgradeBackend.update_backend_info` (`delta.py` lines 4047-4054)
writes `format_version = BACKEND_FORMAT_VERSION` under the condition
`format_version < BACKEND_FORMAT_VERSION`.  The effect of executing that
`Merge` on the persisted version value. -/
def mergeBackendInfo (cur : Nat) : Nat :=
  if cur < BACKEND_FORMAT_VERSION then BACKEND_FORMAT_VERSION else cur

/-- A physical backend object, as far as the two upgrade steps the
claims cite are concerned. -/
inductive DbObj where
  | compType : String → String → DbObj
  | column : String → String → String → DbObj
deriving DecidableEq, Repr

/-- The physical backend state: the collection of existing objects.  A
duplicated entry records a duplicated (unguarded, re-applied) change. -/
abbrev DbState := List DbObj

/-- A dbops existence condition (the `dbops` module is outside this
repository snapshot). -/
inductive Cond where
  | compTypeExists : String → String → Cond
  | columnExists : String → String → String → Cond
deriving DecidableEq, Repr

/-- Modelled from the spec: evaluation of a dbops existence-guard
condition against the backend state (spec section 3,
"existence-guard conditions ... e.g. table exists, column exists"). -/
def Cond.holds : Cond → DbState → Bool
  | .compTypeExists s n, st => decide (DbObj.compType s n ∈ st)
  | .columnExists s t c, st => decide (DbObj.column s t c ∈ st)

/-- A physical action of the two cited upgrade steps. -/
inductive Action where
  | createCompType : String → String → Action
  | addColumn : String → String → String → Action
  | dropColumn : String → String → String → Action
deriving DecidableEq, Repr

/-- Modelled from the spec: effect of a physical action on the backend
state.  Creating appends the object (appending again records a
duplicated change); dropping removes it. -/
def Action.apply : Action → DbState → DbState
  | .createCompType s n, st => st ++ [.compType s n]
  | .addColumn s t c, st => st ++ [.column s t c]
  | .dropColumn s t c, st => st.filter (fun o => o ≠ .column s t c)

/-- A physical operation with its guard conditions, as built by the
upgrade steps (`dbops` command with `conditions` / `neg_conditions`). -/
structure GuardedOp where
  conditions : List Cond
  neg_conditions : List Cond
  action : Action
deriving DecidableEq, Repr

/-- Modelled from the spec: a guarded operation runs only when every
`conditions` entry holds and no `neg_conditions` entry holds; otherwise
it is skipped (spec section 7, GuardSkipped). -/
def GuardedOp.execute (op : GuardedOp) (st : DbState) : DbState :=
  if op.conditions.all (fun c => c.holds st)
      && op.neg_conditions.all (fun c => !(c.holds st)) then
    op.action.apply st
  else st

/-- Run a list of guarded operations in order. -/
def runOps (ops : List GuardedOp) (st : DbState) : DbState :=
  ops.foldl (fun s o => o.execute s) st

/-- `UpgradeBackend.update_to_version_2` (`delta.py` lines 2658-2670):
one `CreateCompositeType` for `LinkEndpointsType`, guarded by a
`CompositeTypeExists` neg-condition.  The concrete composite type name
comes from `deltadbops.LinkEndpointsType` (outside this snapshot) and is
modelled as `caos.link_endpoints`. -/
def update_to_version_2_ops : List GuardedOp :=
  [⟨[], [.compTypeExists "caos" "link_endpoints"],
    .createCompType "caos" "link_endpoints"⟩]

/-- `UpgradeBackend.update_to_version_30` (`delta.py` lines 4028-4045):
an `AlterTableAddColumn` of `caos.link.spectargets` and an
`AlterTableDropColumn` of `caos.concept.is_virtual`, both built with no
`conditions` and no `neg_conditions`. -/
def update_to_version_30_ops : List GuardedOp :=
  [⟨[], [], .addColumn "caos" "link" "spectargets"⟩,
   ⟨[], [], .dropColumn "caos" "concept" "is_virtual"⟩]

end Upgrade

namespace AtomMig

/-- A schema atom as `alter_atom_type` consults it: its name, the names
of its `bases`, and its local value constraints (identified by name). -/
structure Atom where
  name : String
  basesNames : List String
  localConstraints : List String
deriving DecidableEq, Repr

/-- A schema link with an atomic target, i.e. one user of a domain: the
`users` loop of `alter_atom_type` collects `(link.source, link)` for
every link whose target name is the atom's name.  `colName` stands for
`common.caos_name_to_pg_name(link.normal_name())`. -/
structure LinkUser where
  sourceName : String
  targetName : String
  colName : String
deriving DecidableEq, Repr

/-- The schema snapshot as consulted by `alter_atom_type`. -/
structure Schema where
  atoms : List Atom
  links : List LinkUser
deriving Repr

/-- `common.atom_name_to_domain_name(name, catenate=False)` (the
`common` module is outside this snapshot): a schema-qualified domain
name derived injectively from the atom name, modelled as
`(caos, name_domain)`. -/
def atomDomainName (name : String) : String × String :=
  ("caos", name ++ "_domain")

/-- `common.qname` (outside this snapshot): render a qualified name to
one string. -/
def qname (n : String × String) : String :=
  n.1 ++ "." ++ n.2

/-- `common.get_table_name(host_proto, catenate=False)` (outside this
snapshot), modelled as `(caos, source_data)`. -/
def hostTableName (sourceName : String) : String × String :=
  ("caos", sourceName ++ "_data")

/-- The physical operations `alter_atom_type` adds to `self.pgops`. -/
inductive AOp where
  | renameDomain : String × String → String × String → AOp
  | createDomain : String × String → String → AOp
  | constraintCreateGroup : String → String → AOp
  | alterColumnType : String × String → String → String → AOp
  | dropDomain : String × String → AOp
deriving DecidableEq, Repr

/-- `AtomMetaCommand.alter_atom_type` (`delta.py` lines 507-562),
translated with a fuel parameter bounding the recursion depth into
child atoms (the Python recursion terminates on acyclic base graphs;
fuel at least the number of atoms suffices).  Returns the operations
added to `self.pgops`, in order, paired with `true` when the call
raises.  Line 561 reads the name `simple_alter`, which is defined
nowhere in the module, so reaching it with `intent == 'alter'` raises
`NameError`; fuel exhaustion is also reported as `true`. -/
def alter_atom_type (schema : Schema) :
    Nat → Atom → String → String → List AOp × Bool
  | 0, _, _, _ => ([], true)
  | fuel + 1, atom, new_type, intent =>
    let users := schema.links.filter (fun l => l.targetName = atom.name)
    let domain_name := atomDomainName atom.name
    let new_constraints := atom.localConstraints
    -- target_type = new_type (line 520)
    let startOps : List AOp × String × (String × String) :=
      if intent = "alter" then
        let new_name := (domain_name.1, domain_name.2 ++ "_tmp")
        let target_type := qname domain_name
        ([AOp.renameDomain domain_name new_name,
          AOp.createDomain domain_name new_type]
         ++ new_constraints.map (fun c => AOp.constraintCreateGroup atom.name c),
         target_type, new_name)
      else if intent = "create" then
        ([AOp.createDomain domain_name new_type], new_type, domain_name)
      else
        ([], new_type, domain_name)
    let target_type := startOps.2.1
    let colOps := users.map (fun u =>
      AOp.alterColumnType (hostTableName u.sourceName) u.colName target_type)
    let children := schema.atoms.filter (fun c => c.basesNames = [atom.name])
    let afterChildren := children.foldl
      (fun (acc : List AOp × Bool) child =>
        if acc.2 then acc
        else
          let r := alter_atom_type schema fuel child target_type "alter"
          (acc.1 ++ r.1, r.2))
      (startOps.1 ++ colOps, false)
    if afterChildren.2 then afterChildren
    else if intent = "drop" then
      (afterChildren.1 ++ [AOp.dropDomain startOps.2.2], false)
    else if intent = "alter" then
      -- line 561: `not simple_alter` raises NameError
      (afterChildren.1, true)
    else
      (afterChildren.1, false)

/-- The failing input of the claim scenario: atom `Age` with one concept
column using it and one child atom `PositiveAge`. -/
def ageSchema : Schema :=
  { atoms := [⟨"Age", ["int16"], []⟩, ⟨"PositiveAge", ["Age"], []⟩],
    links := [⟨"Person", "Age", "age"⟩] }

end AtomMig

namespace PtrStorage

/-- A non-generic child specialization of a generic link, as consulted
by the generic branch of `has_table`: whether the child is generic, and
the `table_type` of `types.get_pointer_storage_info(l,
resolve_type=False)` (the pgsql `types` module is outside this
snapshot; its result on the child is taken as given data). -/
structure ChildPtr where
  generic : Bool
  tableType : String
deriving DecidableEq, Repr

/-- A link as consulted by `PointerMetaCommand.has_table`. -/
structure Link where
  name : String
  is_pure_computable : Bool
  generic : Bool
  has_user_defined_properties : Bool
  atomic : Bool
  singular : Bool
  children : List ChildPtr
deriving DecidableEq, Repr

/-- `PointerMetaCommand.has_table` (`delta.py` lines 1662-1681). -/
def has_table (link : Link) : Bool :=
  if link.is_pure_computable then false
  else if link.generic then
    if link.name = "metamagic.caos.builtins.link" then true
    else if link.has_user_defined_properties then true
    else link.children.any (fun l => !l.generic && (l.tableType == "link"))
  else
    !link.atomic || !link.singular || link.has_user_defined_properties

end PtrStorage

namespace BaseDelta

/-- A physical table-parent operation emitted by `apply_base_delta`
(`AlterTableDropParent` / `AlterTableAddParent`). -/
inductive ParentOp where
  | dropParent : String → ParentOp
  | addParent : String → ParentOp
deriving DecidableEq, Repr

/-- Order-preserving deduplication keeping first occurrences, as
`datastructures.OrderedSet` (outside this snapshot) does.  `seen`
accumulates the names already kept. -/
def odedup (seen : List String) : List String → List String
  | [] => []
  | b :: rest =>
      if b ∈ seen then odedup seen rest
      else b :: odedup (b :: seen) rest

/-- `dropped_bases` (`delta.py` line 981): the set difference of the old
base names and the new base names.  A Python set iterates in an
unspecified order; the model fixes first-occurrence order. -/
def droppedBases (origBases newBases : List String) : List String :=
  odedup [] (origBases.filter (fun b => decide (b ∉ newBases)))

/-- `current_bases` (`delta.py` lines 1068-1070):
`list(OrderedSet(orig base names) - dropped_bases)`, i.e. the old base
names, deduplicated in order, restricted to those still present among
the new base names. -/
def currentBases (origBases newBases : List String) : List String :=
  odedup [] (origBases.filter (fun b => decide (b ∈ newBases)))

/-- Length of `unchanged_order` (`delta.py` lines 1074-1076): the
longest common prefix of `current_bases` and `new_bases`, computed as
`takewhile(lambda x: x[0] == x[1], zip(current_bases, new_bases))`. -/
def unchangedLen (cur new : List String) : Nat :=
  ((cur.zip new).takeWhile (fun p => decide (p.1 = p.2))).length

/-- The parent-alignment operations (`delta.py` lines 1078-1096): when
the divergent suffix of the new base list is nonempty, drop-parent for
the divergent suffix of `current_bases` followed by add-parent for the
divergent suffix of `new_bases`; otherwise nothing. -/
def alignOps (origBases newBases : List String) : List ParentOp :=
  let cur := currentBases origBases newBases
  let k := unchangedLen cur newBases
  let old_base_order := cur.drop k
  let new_base_order := newBases.drop k
  if new_base_order.isEmpty then []
  else old_base_order.map ParentOp.dropParent
       ++ new_base_order.map ParentOp.addParent

/-- All table-parent operations of `apply_base_delta` for a source with
its own table: the drop-parent operations for `dropped_bases`
(`delta.py` lines 1033-1039), followed by the alignment operations. -/
def base_delta_parent_ops (origBases newBases : List String) : List ParentOp :=
  (droppedBases origBases newBases).map ParentOp.dropParent
  ++ alignOps origBases newBases

end BaseDelta

namespace TyRules

/-- A Python value stored as a rule result: either a type object
(identified by its name) or a string naming a prototype to be resolved
through the schema. -/
inductive RVal where
  | obj : String → RVal
  | str : String → RVal
deriving DecidableEq, Repr

/-- An argument or signature type, identified by name. -/
abbrev Ty := String

/-- The ambient subtype test: `issubclass(arg, sig_arg)` for classes and
`arg.issubclass(sig_arg)` for prototypes (`types.py` lines 39-40). -/
structure TypeCtx where
  issub : Ty → Ty → Bool

/-- The per-arity signature dictionary: insertion-ordered mapping from
argument-type tuples to results. -/
abbrev ArityRules := List (List Ty × RVal)

/-- `TypeRules.rules`: operator, then arity, then signature tuple;
every level is an insertion-ordered Python dict. -/
abbrev Rules := List (String × List (Nat × ArityRules))

/-- Python dict item assignment on the signature level: an existing key
keeps its position and gets the new value, a fresh key is appended. -/
def setSig : ArityRules → List Ty → RVal → ArityRules
  | [], args, r => [(args, r)]
  | (a, v) :: rest, args, r =>
      if a = args then (a, r) :: rest else (a, v) :: setSig rest args r

/-- `setdefault(len(args), {})[tuple(args)] = result` on the arity
level. -/
def setArity : List (Nat × ArityRules) → Nat → List Ty → RVal → List (Nat × ArityRules)
  | [], n, args, r => [(n, setSig [] args r)]
  | (m, ar) :: rest, n, args, r =>
      if m = n then (m, setSig ar args r) :: rest
      else (m, ar) :: setArity rest n args r

/-- `TypeRules.add_rule` (`types.py` lines 23-25):
`cls.rules.setdefault(op, {}).setdefault(len(args), {})[tuple(args)] =
result`. -/
def add_rule : Rules → String → List Ty → RVal → Rules
  | [], op, args, r => [(op, setArity [] args.length args r)]
  | (o, ars) :: rest, op, args, r =>
      if o = op then (o, setArity ars args.length args r) :: rest
      else (o, ars) :: add_rule rest op args r

/-- Python truthiness of a rule result (`if match and ...`, `types.py`
line 46): a type object is truthy, a string is truthy iff nonempty. -/
def truthy : RVal → Bool
  | .obj _ => true
  | .str s => !(s == "")

/-- The inner loop of `get_result` (`types.py` lines 37-41): a signature
matches when at every position the actual argument is a (reflexive)
subclass of the declared type.  Signature tuples stored under arity
`len(args)` always have exactly `len(args)` entries, so the zip is
exact. -/
def sigMatches (ctx : TypeCtx) (args sig : List Ty) : Bool :=
  (args.zip sig).all (fun p => ctx.issub p.1 p.2)

/-- The scan of `get_result` (`types.py` lines 36-44): first matching
signature in insertion order wins. -/
def findMatch (ctx : TypeCtx) (args : List Ty) : ArityRules → Option RVal
  | [] => none
  | (sig, r) :: rest =>
      if sigMatches ctx args sig then some r else findMatch ctx args rest

/-- `TypeRules.get_result` (`types.py` lines 27-49).  `schemaGet` is the
schema lookup used when the matched result is a (truthy) string. -/
def get_result (ctx : TypeCtx) (rules : Rules) (op : String) (args : List Ty)
    (schemaGet : String → Option RVal) : Option RVal :=
  match rules.lookup op with
  | none => none
  | some ars =>
    match ars.lookup args.length with
    | none => none
    | some sigs =>
      match findMatch ctx args sigs with
      | none => none
      | some m =>
        if truthy m then
          match m with
          | .str s => schemaGet s
          | _ => some m
        else some m

/-- The concrete subtype context of the claim example: `IntegerType` is
a subtype of `NumberType`; the relation is reflexive. -/
def exampleCtx : TypeCtx :=
  ⟨fun a b => a == b || (a == "IntegerType" && b == "NumberType")⟩

end TyRules

namespace MappingIdx

/-- `s_links.LinkMapping` (outside this snapshot): the four link
cardinality classes, listed in the member order used by
`LinkMapping.__members__` when the queues are initialised. -/
inductive Mapping where
  | oneToOne | oneToMany | manyToOne | manyToMany
deriving DecidableEq, Repr

abbrev LinkName := String
abbrev IdxName := String

/-- The introspected existing mapping indexes of one link table, after
`interpret_indexes`: index name, its cardinality, and the specialized
link names its predicate covers (insertion order of
`existing_by_name`). -/
abbrev ExistingIdx := List (IdxName × Mapping × List LinkName)

/-- The data of one `AlterLink` command as consulted by the loop:
`proto.name`, `proto.mapping`, and `op.old_link.name`. -/
structure AlterInfo where
  protoName : LinkName
  protoMapping : Mapping
  oldName : LinkName
deriving DecidableEq, Repr

/-- One `(op, proto)` pair accumulated in `UpdateMappingIndexes.links`
for one link table. -/
inductive LinkCmd where
  | createLink : LinkName → Mapping → LinkCmd
  | alterLink : AlterInfo → LinkCmd
deriving DecidableEq, Repr

/-- A queued item (`delta.py` line 2335):
`(proto.name, op.old_link.name, ex_idx_names)`; a `CreateLink` queues
`(proto.name, None, None)`. -/
abbrev Item := LinkName × Option LinkName × Option (List IdxName)

/-- A cardinality-keyed dict of queued items
(`{k: [] for k in LinkMapping.__members__.values()}`). -/
abbrev Queue := List (Mapping × List Item)

def initQueue : Queue :=
  [(.oneToOne, []), (.oneToMany, []), (.manyToOne, []), (.manyToMany, [])]

def qGet (q : Queue) (m : Mapping) : List Item :=
  (q.lookup m).getD []

def qSet (q : Queue) (m : Mapping) (v : List Item) : Queue :=
  q.map (fun e => if e.1 = m then (e.1, v) else e)

def qAppend (q : Queue) (m : Mapping) (it : Item) : Queue :=
  qSet q m (qGet q m ++ [it])

/-- Python `list.remove(item)`: drop the first occurrence, `none`
standing for the `ValueError` raised when the item is absent. -/
def removeFirst : List Item → Item → Option (List Item)
  | [], _ => none
  | x :: xs, it =>
      if x = it then some xs else (removeFirst xs it).map (fun l => x :: l)

def qRemove (q : Queue) (m : Mapping) (it : Item) : Option Queue :=
  (removeFirst (qGet q m) it).map (qSet q m)

/-- `_group_indexes` (`delta.py` lines 2264-2269): the
`(link name, index name)` pairs of the existing indexes. -/
def groupPairs (existing : ExistingIdx) : List (LinkName × IdxName) :=
  existing.flatMap (fun e => e.2.2.map (fun ln => (ln, e.1)))

/-- `group_indexes` followed by `existing.get(name)` (`delta.py` lines
2271-2275 and 2326): the index names covering `name`.  `group_indexes`
stably sorts the pairs by link name and groups them, so for one link
name the index names keep their `existing_by_name` order, which is what
the filter computes; an empty result is Python's `None`. -/
def existingFor (existing : ExistingIdx) (name : LinkName) : List IdxName :=
  ((groupPairs existing).filter (fun p => p.1 = name)).map (fun p => p.2)

/-- `existing_by_name[idx]` as an option (a missing key is a fatal
`KeyError`). -/
def lookupIdx (existing : ExistingIdx) (n : IdxName) : Option (Mapping × List LinkName) :=
  existing.lookup n

/-- assoc-list update with Python dict semantics: existing key keeps its
position, fresh key appended. -/
def dictSetP : List (LinkName × Mapping) → LinkName → Mapping → List (LinkName × Mapping)
  | [], k, v => [(k, v)]
  | (k1, v1) :: rest, k, v =>
      if k1 = k then (k1, v) :: rest else (k1, v1) :: dictSetP rest k v

/-- The loop state of `UpdateMappingIndexes.apply` for one link table
(`delta.py` lines 2298-2312). -/
structure LoopState where
  new_indexes : Queue
  alter_indexes : Queue
  processed : List (LinkName × Mapping)
deriving Repr

def initState : LoopState :=
  ⟨initQueue, initQueue, []⟩

/-- The queue update of the `AlterLink` branch (`delta.py` lines
2337-2347), acting on whichever queue `q` was selected.  `none` is the
`ValueError` of `queue[already_processed].remove(item)` on an item that
was never queued.  The `LinkMapping` members are nonzero values, so
`if already_processed:` tests presence. -/
def alterQueueStep (already : Option Mapping) (exMapping : Option Mapping)
    (m : Mapping) (it : Item) (q : Queue) : Option Queue :=
  let wants : Bool :=
    match exMapping with
    | none => true
    | some e => decide (e ≠ m)
  match already with
  | some ap =>
      if ap = m then some q
      else
        match qRemove q ap it with
        | none => none
        | some q1 => if wants then some (qAppend q1 m it) else some q1
  | none => if wants then some (qAppend q m it) else some q

/-- One iteration of the `for op, proto in ops` loop (`delta.py` lines
2314-2349).  `Except.error` stands for the uncaught Python exceptions:
the `assert` on a duplicate `CreateLink`, a `KeyError` on
`existing_by_name`, and the `ValueError` of `list.remove`. -/
def procStep (existing : ExistingIdx) (st : LoopState) :
    LinkCmd → Except Unit LoopState
  | .createLink name mapping =>
      if (st.processed.lookup name).isSome then .error ()
      else .ok { st with
        new_indexes := qAppend st.new_indexes mapping (name, none, none),
        processed := dictSetP st.processed name mapping }
  | .alterLink a =>
      let names := existingFor existing a.oldName
      let already := st.processed.lookup a.protoName
      match names with
      | [] =>
          let it : Item := (a.protoName, some a.oldName, none)
          match alterQueueStep already none a.protoMapping it st.new_indexes with
          | none => .error ()
          | some q => .ok { st with
              new_indexes := q,
              processed := dictSetP st.processed a.protoName a.protoMapping }
      | i :: rest =>
          match lookupIdx existing i with
          | none => .error ()
          | some exIdx =>
              let it : Item := (a.protoName, some a.oldName, some (i :: rest))
              match alterQueueStep already (some exIdx.1) a.protoMapping it
                      st.alter_indexes with
              | none => .error ()
              | some q => .ok { st with
                  alter_indexes := q,
                  processed := dictSetP st.processed a.protoName a.protoMapping }

/-- The whole accumulation loop. -/
def procOps (existing : ExistingIdx) (ops : List LinkCmd) : Except Unit LoopState :=
  ops.foldlM (procStep existing) initState

/-- The physical reconciliation commands emitted at the end of `apply`
(`CreateMappingIndexes`, `DropMappingIndexes`, `AlterMappingIndexes`,
`delta.py` lines 2162-2213). -/
inductive MIOp where
  | createMapping : String → Mapping → List LinkName → MIOp
  | dropMapping : String → List IdxName → Mapping → MIOp
  | alterMapping : String → List IdxName → Mapping → List LinkName → MIOp
deriving DecidableEq, Repr

/-- `CreateMappingIndexes.__init__` (`delta.py` lines 2162-2188): the
index sides implied by a cardinality. -/
def sidesFor : Mapping → List String
  | .oneToOne => ["metamagic.caos.builtins.source", "metamagic.caos.builtins.target"]
  | .oneToMany => ["metamagic.caos.builtins.target"]
  | .manyToOne => ["metamagic.caos.builtins.source"]
  | .manyToMany => []

/-- Emission for `new_indexes` (`delta.py` lines 2351-2354). -/
def emitNew (table : String) (q : Queue) : List MIOp :=
  q.flatMap (fun e =>
    if e.2.isEmpty then []
    else [MIOp.createMapping table e.1 (e.2.map (fun it => it.1))])

/-- The accumulator of the `alter_indexes` bucket loop (`delta.py` lines
2357-2368): `new`, the `alter` dict keyed by `ex_idx_names` holding the
surviving member set of each existing index, and the last value of the
`ex_idx_names` loop variable (used by the `DropMappingIndexes` branch at
line 2375). -/
structure AlterAcc where
  newLinks : List LinkName
  alter : List (List IdxName × List LinkName)
  lastEx : Option (List IdxName)
deriving Repr

/-- assoc lookup/update for the `alter` dict. -/
def altGet (l : List (List IdxName × List LinkName)) (k : List IdxName) :
    Option (List LinkName) :=
  l.lookup k

def altSet : List (List IdxName × List LinkName) → List IdxName → List LinkName →
    List (List IdxName × List LinkName)
  | [], k, v => [(k, v)]
  | (k1, v1) :: rest, k, v =>
      if k1 = k then (k1, v) :: rest else (k1, v1) :: altSet rest k v

/-- The per-item body of the bucket loop (`delta.py` lines 2359-2368).
`set(ex_idx[1])` is modelled as `dedup` (Python set order is
unspecified; only membership is consumed) and `discard` as removal of
every occurrence. -/
def alterItemStep (existing : ExistingIdx) (acc : AlterAcc) (it : Item) :
    Except Unit AlterAcc :=
  match it.2.2 with
  | none => .error ()
  | some [] => .error ()
  | some (i :: rest) =>
      match lookupIdx existing i with
      | none => .error ()
      | some exIdx =>
          let key := i :: rest
          let links0 :=
            match altGet acc.alter key with
            | some ls => ls
            | none => exIdx.2.dedup
          let links1 :=
            match it.2.1 with
            | none => links0
            | some o => links0.filter (fun x => decide (x ≠ o))
          .ok ⟨acc.newLinks ++ [it.1], altSet acc.alter key links1, some key⟩

def alterFold (existing : ExistingIdx) (items : List Item) :
    Except Unit AlterAcc :=
  items.foldlM (alterItemStep existing) ⟨[], [], none⟩

/-- Emission for one `alter_indexes` bucket (`delta.py` lines
2356-2378). -/
def emitAlterBucket (existing : ExistingIdx) (table : String) (m : Mapping)
    (items : List Item) : Except Unit (List MIOp) :=
  match alterFold existing items with
  | .error e => .error e
  | .ok acc =>
      let createOps :=
        if acc.newLinks.isEmpty then []
        else [MIOp.createMapping table m acc.newLinks]
      let alterOps := acc.alter.map (fun e =>
        if e.2.isEmpty then MIOp.dropMapping table (acc.lastEx.getD []) m
        else MIOp.alterMapping table e.1 m e.2)
      .ok (createOps ++ alterOps)

def emitAlterAll (existing : ExistingIdx) (table : String) :
    Queue → Except Unit (List MIOp)
  | [] => .ok []
  | e :: rest =>
      match emitAlterBucket existing table e.1 e.2 with
      | .error err => .error err
      | .ok ops1 =>
          match emitAlterAll existing table rest with
          | .error err => .error err
          | .ok ops2 => .ok (ops1 ++ ops2)

/-- The whole reconciliation for one link table: run the accumulation
loop over the queued `(op, proto)` pairs, then emit the create
operations for `new_indexes` followed by the per-bucket operations for
`alter_indexes` (`delta.py` lines 2294-2378). -/
def applyLink (existing : ExistingIdx) (table : String) (ops : List LinkCmd) :
    Except Unit (List MIOp) :=
  match procOps existing ops with
  | .error e => .error e
  | .ok st =>
      match emitAlterAll existing table st.alter_indexes with
      | .error e => .error e
      | .ok altOps => .ok (emitNew table st.new_indexes ++ altOps)

/-- The `AlterLink` entry altering link `L` (old name `Lold`) to
cardinality `m`. -/
def mkAlter (L Lold : LinkName) (m : Mapping) : LinkCmd :=
  .alterLink ⟨L, m, Lold⟩

/-- The loop state reached after processing a chain of alters of one
link `L` (old name `Lold`) against a single existing index `idx` of
cardinality `exM`, the last alter carrying cardinality `m`: nothing
queued in `new_indexes`; the item queued in the `alter_indexes` bucket
of `m` exactly when `m` differs from the existing index cardinality;
`processed` holding the last cardinality seen. -/
def invState (exM : Mapping) (L Lold : LinkName) (idx : IdxName) (m : Mapping) : LoopState :=
  { new_indexes := initQueue,
    alter_indexes :=
      if m = exM then initQueue
      else qAppend initQueue m (L, some Lold, some [idx]),
    processed := [(L, m)] }

end MappingIdx

/-! ## Section 2: Theorems -/

namespace Upgrade

theorem range'_map_succ : ∀ (n s : Nat),
    (List.range' s n).map (fun v => v + 1) = List.range' (s + 1) n := by
  intro n
  induction n with
  | zero => intro s; rfl
  | succ m ih => intro s; simp only [List.range'_succ, List.map_cons, ih]

theorem range'_chain_succ : ∀ (n s : Nat),
    (List.range' s n).Chain' (fun a b => b = a + 1) := by
  intro n
  induction n with
  | zero => intro s; simp
  | succ m ih =>
      intro s
      rw [List.range'_succ, List.chain'_cons']
      refine ⟨?_, ih (s + 1)⟩
      intro y hy
      cases m with
      | zero => simp at hy
      | succ k => rw [List.range'_succ] at hy; simp at hy; omega

/-- C3: for every persisted format version v0 < CURRENT (30), the
Backend Upgrade Chain executes exactly the steps v0+1, ..., 30, each
next step one above the previous (strictly ascending, none skipped),
and afterwards persists CURRENT (the `update_backend_info` merge sets
the stored version to 30). -/
theorem C3_upgrade_chain (v0 : Nat) (h : v0 < 30) :
    UpgradeBackend.execute v0
      = (List.range' (v0 + 1) (BACKEND_FORMAT_VERSION - v0)).map UpgradeEvent.step
        ++ [UpgradeEvent.persist BACKEND_FORMAT_VERSION]
    ∧ (List.range' (v0 + 1) (BACKEND_FORMAT_VERSION - v0)).Chain' (fun a b => b = a + 1)
    ∧ (∀ v, v ∈ List.range' (v0 + 1) (BACKEND_FORMAT_VERSION - v0) ↔ v0 + 1 ≤ v ∧ v ≤ 30)
    ∧ mergeBackendInfo v0 = BACKEND_FORMAT_VERSION := by
  refine ⟨?_, range'_chain_succ _ _, ?_, ?_⟩
  · unfold UpgradeBackend.execute
    rw [← range'_map_succ, List.map_map]
    rfl
  · intro v
    rw [List.mem_range']
    unfold BACKEND_FORMAT_VERSION
    constructor
    · rintro ⟨i, hi, rfl⟩; omega
    · intro hv; exact ⟨v - (v0 + 1), by omega, by omega⟩
  · unfold mergeBackendInfo BACKEND_FORMAT_VERSION
    rw [if_pos h]

theorem C3_upgrade_chain_witness :
    27 < 30
    ∧ (UpgradeBackend.execute 27
        = (List.range' 28 (BACKEND_FORMAT_VERSION - 27)).map UpgradeEvent.step
          ++ [UpgradeEvent.persist BACKEND_FORMAT_VERSION]
      ∧ (List.range' 28 (BACKEND_FORMAT_VERSION - 27)).Chain' (fun a b => b = a + 1)
      ∧ (∀ v, v ∈ List.range' 28 (BACKEND_FORMAT_VERSION - 27) ↔ 28 ≤ v ∧ v ≤ 30)
      ∧ mergeBackendInfo 27 = BACKEND_FORMAT_VERSION) :=
  ⟨by decide, C3_upgrade_chain 27 (by decide)⟩

end Upgrade

namespace PtrStorage

/-- C9: a purely computable link never gets a table of its own:
`has_table` returns false whatever the remaining fields say. -/
theorem C9_computable_never_has_table (link : Link)
    (h : link.is_pure_computable = true) : has_table link = false := by
  simp [has_table, h]

theorem C9_computable_never_has_table_witness :
    Link.is_pure_computable ⟨"l", true, true, true, false, false, [⟨false, "link"⟩]⟩ = true
    ∧ has_table ⟨"l", true, true, true, false, false, [⟨false, "link"⟩]⟩ = false :=
  ⟨rfl, C9_computable_never_has_table ⟨"l", true, true, true, false, false, [⟨false, "link"⟩]⟩ rfl⟩

/-- C5 counterexample: the claim "resolving storage for every
non-singular non-generic link yields has_table true" is false: a purely
computable non-generic non-singular link has `has_table` false (the
computability test short-circuits everything else). -/
theorem C5_counterexample_computable_nonsingular :
    ¬ (∀ link : Link, link.generic = false → link.singular = false →
        has_table link = true) := by
  intro h
  have := h ⟨"coolness", true, false, false, false, false, []⟩ rfl rfl
  simp [has_table] at this

/-- C5 amended: for every non-generic pointer that is not purely
computable, storage is a plain column on the owner's table (no own
table) exactly when it is atomic, singular, and has no user-defined
properties; in particular every such non-singular link has its own
table. -/
theorem C5_amended_column_iff (link : Link)
    (hc : link.is_pure_computable = false) (hg : link.generic = false) :
    (has_table link = false
      ↔ (link.atomic = true ∧ link.singular = true
          ∧ link.has_user_defined_properties = false))
    ∧ (link.singular = false → has_table link = true) := by
  obtain ⟨nm, c, g, props, hat, sg, ch⟩ := link
  simp only at hc hg
  subst hc; subst hg
  simp only [has_table, if_neg Bool.false_ne_true]
  cases hat <;> cases sg <;> cases props <;> simp

theorem C5_amended_column_iff_witness :
    Link.is_pure_computable ⟨"name", false, false, false, true, true, []⟩ = false
    ∧ Link.generic ⟨"name", false, false, false, true, true, []⟩ = false
    ∧ ((has_table ⟨"name", false, false, false, true, true, []⟩ = false
        ↔ (Link.atomic ⟨"name", false, false, false, true, true, []⟩ = true
            ∧ Link.singular ⟨"name", false, false, false, true, true, []⟩ = true
            ∧ Link.has_user_defined_properties ⟨"name", false, false, false, true, true, []⟩ = false))
      ∧ (Link.singular ⟨"name", false, false, false, true, true, []⟩ = false
          → has_table ⟨"name", false, false, false, true, true, []⟩ = true)) :=
  ⟨rfl, rfl, C5_amended_column_iff ⟨"name", false, false, false, true, true, []⟩ rfl rfl⟩

end PtrStorage

namespace AtomMig

/-- C2 (code bug): altering atom Age from int16 to int32, with one
concept column using the domain and one child atom PositiveAge, emits
the domain rename, the new domain create, the column type alteration
and the recursive child rename/create, and then raises NameError on the
undefined name `simple_alter` (line 561) instead of dropping the
temporary renamed old domain: the second component `true` records the
exception, and no `dropDomain` operation is ever emitted. -/
theorem C2_alter_atom_type_raises :
    alter_atom_type ageSchema 3 ⟨"Age", ["int16"], []⟩ "int32" "alter"
      = ([AOp.renameDomain ("caos", "Age_domain") ("caos", "Age_domain_tmp"),
          AOp.createDomain ("caos", "Age_domain") "int32",
          AOp.alterColumnType ("caos", "Person_data") "age" "caos.Age_domain",
          AOp.renameDomain ("caos", "PositiveAge_domain") ("caos", "PositiveAge_domain_tmp"),
          AOp.createDomain ("caos", "PositiveAge_domain") "caos.Age_domain"],
         true) := by
  rfl

end AtomMig

namespace Upgrade

/-- C4 counterexample: the claim "every upgrade step is self-guarded
with existence checks, so re-running performs no duplicated change and
running the chain twice from the same starting version equals running
it once" fails at `update_to_version_30`: its operations carry no
guard conditions at all, and re-running the step from the concrete
state holding only `caos.concept.is_virtual` adds the `spectargets`
column a second time. -/
theorem C4_counterexample_step30_not_guarded :
    runOps update_to_version_30_ops
        (runOps update_to_version_30_ops [DbObj.column "caos" "concept" "is_virtual"])
      ≠ runOps update_to_version_30_ops [DbObj.column "caos" "concept" "is_virtual"]
    ∧ update_to_version_30_ops.all
        (fun o => o.conditions.isEmpty && o.neg_conditions.isEmpty) = true := by
  exact ⟨by decide, rfl⟩

/-- C4 amended: guarded steps such as `update_to_version_2` are indeed
idempotent under the guard semantics (re-running performs no duplicated
change), but `update_to_version_30` is not self-guarded (its operations
carry no conditions); the chain run a second time after the first has
persisted CURRENT executes zero upgrade steps and leaves the persisted
version at CURRENT. -/
theorem C4_amended_guards :
    (∀ st : DbState, runOps update_to_version_2_ops (runOps update_to_version_2_ops st)
        = runOps update_to_version_2_ops st)
    ∧ update_to_version_30_ops.all
        (fun o => o.conditions.isEmpty && o.neg_conditions.isEmpty) = true
    ∧ UpgradeBackend.execute BACKEND_FORMAT_VERSION
        = [UpgradeEvent.persist BACKEND_FORMAT_VERSION]
    ∧ mergeBackendInfo BACKEND_FORMAT_VERSION = BACKEND_FORMAT_VERSION := by
  refine ⟨?_, rfl, by rfl, by rfl⟩
  intro st
  have run_eq : ∀ s : DbState, runOps update_to_version_2_ops s
      = if DbObj.compType "caos" "link_endpoints" ∈ s then s
        else s ++ [DbObj.compType "caos" "link_endpoints"] := by
    intro s
    simp only [runOps, List.foldl_cons, List.foldl_nil, update_to_version_2_ops,
      GuardedOp.execute, List.all_cons, List.all_nil, Cond.holds, Action.apply,
      Bool.and_true, Bool.true_and]
    by_cases h : DbObj.compType "caos" "link_endpoints" ∈ s <;> simp [h]
  rw [run_eq, run_eq]
  by_cases h : DbObj.compType "caos" "link_endpoints" ∈ st <;> simp [h]

end Upgrade

namespace TyRules

/-- C7: resolution scans the signatures registered for an operator and
arity in registration order and returns the result of the first
signature whose every position accepts the actual argument type
(subtype or equal); concretely, after registering
(+, [IntegerType, IntegerType]) -> IntegerType and then
(+, [NumberType, NumberType]) -> NumberType, resolving
(+, [IntegerType, IntegerType]) returns IntegerType even though the
second signature also matches, and resolving argument types matched by
no signature returns none rather than raising. -/
theorem C7_first_match_wins
    (ctx : TypeCtx) (op : String) (sig1 sig2 : List Ty) (r1 r2 : String)
    (args : List Ty) (schemaGet : String → Option RVal)
    (hne : sig1 ≠ sig2) (hlen1 : sig1.length = args.length)
    (hlen2 : sig2.length = args.length)
    (hm : sigMatches ctx args sig1 = true) :
    get_result ctx (add_rule (add_rule [] op sig1 (RVal.obj r1)) op sig2 (RVal.obj r2))
        op args schemaGet = some (RVal.obj r1)
    ∧ get_result exampleCtx
        (add_rule (add_rule [] "+" ["IntegerType", "IntegerType"] (RVal.obj "IntegerType"))
          "+" ["NumberType", "NumberType"] (RVal.obj "NumberType"))
        "+" ["IntegerType", "IntegerType"] (fun _ => none)
      = some (RVal.obj "IntegerType")
    ∧ get_result exampleCtx
        (add_rule (add_rule [] "+" ["IntegerType", "IntegerType"] (RVal.obj "IntegerType"))
          "+" ["NumberType", "NumberType"] (RVal.obj "NumberType"))
        "+" ["BoolType", "BoolType"] (fun _ => none) = none := by
  refine ⟨?_, by decide, by decide⟩
  have e1 : add_rule (add_rule [] op sig1 (RVal.obj r1)) op sig2 (RVal.obj r2)
      = [(op, [(args.length, [(sig1, RVal.obj r1), (sig2, RVal.obj r2)])])] := by
    simp [add_rule, setArity, setSig, hlen1, hlen2, hne]
  rw [e1]
  simp [get_result, List.lookup, findMatch, hm, truthy]

theorem C7_first_match_wins_witness :
    (["IntegerType", "IntegerType"] : List Ty) ≠ ["NumberType", "NumberType"]
    ∧ (["IntegerType", "IntegerType"] : List Ty).length
        = (["IntegerType", "IntegerType"] : List Ty).length
    ∧ (["NumberType", "NumberType"] : List Ty).length
        = (["IntegerType", "IntegerType"] : List Ty).length
    ∧ sigMatches exampleCtx ["IntegerType", "IntegerType"] ["IntegerType", "IntegerType"] = true
    ∧ (get_result exampleCtx
        (add_rule (add_rule [] "+" ["IntegerType", "IntegerType"] (RVal.obj "IntegerType"))
          "+" ["NumberType", "NumberType"] (RVal.obj "NumberType"))
        "+" ["IntegerType", "IntegerType"] (fun _ => none)
      = some (RVal.obj "IntegerType")
    ∧ get_result exampleCtx
        (add_rule (add_rule [] "+" ["IntegerType", "IntegerType"] (RVal.obj "IntegerType"))
          "+" ["NumberType", "NumberType"] (RVal.obj "NumberType"))
        "+" ["IntegerType", "IntegerType"] (fun _ => none)
      = some (RVal.obj "IntegerType")
    ∧ get_result exampleCtx
        (add_rule (add_rule [] "+" ["IntegerType", "IntegerType"] (RVal.obj "IntegerType"))
          "+" ["NumberType", "NumberType"] (RVal.obj "NumberType"))
        "+" ["BoolType", "BoolType"] (fun _ => none) = none) :=
  ⟨by decide, rfl, by decide, by decide,
    C7_first_match_wins exampleCtx "+" ["IntegerType", "IntegerType"]
      ["NumberType", "NumberType"] "IntegerType" "NumberType"
      ["IntegerType", "IntegerType"] (fun _ => none)
      (by decide) (by decide) (by decide) (by decide)⟩

/-- C10: registering two rules with the same operator and the same
argument-type tuple stores them under one dictionary key, so the second
registration replaces the first, and resolving those exact argument
types returns the later result. -/
theorem C10_same_signature_replaces
    (ctx : TypeCtx) (op : String) (args : List Ty) (r1 r2 : String)
    (schemaGet : String → Option RVal)
    (hm : sigMatches ctx args args = true) :
    add_rule (add_rule [] op args (RVal.obj r1)) op args (RVal.obj r2)
        = [(op, [(args.length, [(args, RVal.obj r2)])])]
    ∧ get_result ctx (add_rule (add_rule [] op args (RVal.obj r1)) op args (RVal.obj r2))
        op args schemaGet = some (RVal.obj r2) := by
  have e1 : add_rule (add_rule [] op args (RVal.obj r1)) op args (RVal.obj r2)
      = [(op, [(args.length, [(args, RVal.obj r2)])])] := by
    simp [add_rule, setArity, setSig]
  refine ⟨e1, ?_⟩
  rw [e1]
  simp [get_result, List.lookup, findMatch, hm, truthy]

theorem C10_same_signature_replaces_witness :
    sigMatches exampleCtx ["IntegerType"] ["IntegerType"] = true
    ∧ (add_rule (add_rule [] "-" ["IntegerType"] (RVal.obj "A")) "-" ["IntegerType"] (RVal.obj "B")
        = [("-", [(1, [(["IntegerType"], RVal.obj "B")])])]
    ∧ get_result exampleCtx
        (add_rule (add_rule [] "-" ["IntegerType"] (RVal.obj "A")) "-" ["IntegerType"] (RVal.obj "B"))
        "-" ["IntegerType"] (fun _ => none) = some (RVal.obj "B")) :=
  ⟨by decide,
    C10_same_signature_replaces exampleCtx "-" ["IntegerType"] "A" "B"
      (fun _ => none) (by decide)⟩

end TyRules

namespace BaseDelta

theorem odedup_mem {b : String} :
    ∀ (l seen : List String), b ∈ odedup seen l → b ∈ l := by
  intro l
  induction l with
  | nil => intro seen h; simp [odedup] at h
  | cons x xs ih =>
      intro seen h
      simp only [odedup] at h
      by_cases hx : x ∈ seen
      · rw [if_pos hx] at h
        exact List.mem_cons_of_mem _ (ih _ h)
      · rw [if_neg hx] at h
        rcases List.mem_cons.mp h with h1 | h2
        · exact h1 ▸ List.mem_cons_self _ _
        · exact List.mem_cons_of_mem _ (ih _ h2)

theorem odedup_not_seen {b : String} :
    ∀ (l seen : List String), b ∈ odedup seen l → b ∉ seen := by
  intro l
  induction l with
  | nil => intro seen h; simp [odedup] at h
  | cons x xs ih =>
      intro seen h
      simp only [odedup] at h
      by_cases hx : x ∈ seen
      · rw [if_pos hx] at h
        exact ih _ h
      · rw [if_neg hx] at h
        rcases List.mem_cons.mp h with h1 | h2
        · exact h1 ▸ hx
        · intro hb
          exact ih _ h2 (List.mem_cons_of_mem _ hb)

theorem odedup_nodup : ∀ (l seen : List String), (odedup seen l).Nodup := by
  intro l
  induction l with
  | nil => intro seen; simp [odedup]
  | cons x xs ih =>
      intro seen
      simp only [odedup]
      by_cases hx : x ∈ seen
      · rw [if_pos hx]; exact ih _
      · rw [if_neg hx]
        refine List.Nodup.cons ?_ (ih _)
        intro hmem
        exact odedup_not_seen _ _ hmem (List.mem_cons_self _ _)

theorem odedup_eq_self :
    ∀ (l seen : List String), l.Nodup → (∀ b ∈ l, b ∉ seen) → odedup seen l = l := by
  intro l
  induction l with
  | nil => intro seen _ _; rfl
  | cons x xs ih =>
      intro seen hnd hdis
      simp only [odedup]
      rw [if_neg (hdis x (List.mem_cons_self _ _))]
      congr 1
      refine ih _ (List.Nodup.of_cons hnd) ?_
      intro b hb
      simp only [List.mem_cons, not_or]
      exact ⟨fun he => List.rel_of_pairwise_cons hnd hb he.symm,
             hdis b (List.mem_cons_of_mem _ hb)⟩

theorem unchangedLen_self : ∀ (l : List String), unchangedLen l l = l.length := by
  intro l
  induction l with
  | nil => rfl
  | cons x xs ih =>
      simp only [unchangedLen, List.zip_cons_cons, List.takeWhile_cons] at ih ⊢
      simp [ih]

theorem align_shape :
    ∀ (cur N : List String), cur.Nodup → (∀ b ∈ cur, b ∈ N) →
      N.drop (unchangedLen cur N) = [] → cur.drop (unchangedLen cur N) = [] := by
  intro cur
  induction cur with
  | nil => intro N _ _ _; simp
  | cons c cs ih =>
      intro N hnd hsub hN
      cases N with
      | nil => exact absurd (hsub c (List.mem_cons_self c cs)) (by simp)
      | cons n ns =>
          by_cases hcn : c = n
          · subst hcn
            have hk : unchangedLen (c :: cs) (c :: ns) = unchangedLen cs ns + 1 := by
              simp [unchangedLen, List.takeWhile_cons]
            rw [hk] at hN ⊢
            simp only [List.drop_succ_cons] at hN ⊢
            refine ih ns (List.Nodup.of_cons hnd) ?_ hN
            intro b hb
            have hbN := hsub b (List.mem_cons_of_mem _ hb)
            rcases List.mem_cons.mp hbN with h1 | h2
            · exact absurd (h1 ▸ hb) (List.nodup_cons.mp hnd).1
            · exact h2
          · have hk : unchangedLen (c :: cs) (n :: ns) = 0 := by
              simp [unchangedLen, List.takeWhile_cons, hcn]
            rw [hk] at hN
            simp at hN

/-- C6: running the inheritance delta engine with identical old/new
base lists (the list being duplicate-free, as schema base lists are)
yields zero add-parent and zero drop-parent operations; and in general
the alignment pass leaves the longest common prefix of the remaining
old list (`current_bases`) and the new list untouched, emitting
drop-parent operations for the divergent suffix of the remaining old
list followed by add-parent operations for the divergent suffix of the
new list. -/
theorem C6_inheritance_alignment (O N : List String) :
    (O.Nodup → O = N → base_delta_parent_ops O N = [])
    ∧ alignOps O N =
        ((currentBases O N).drop (unchangedLen (currentBases O N) N)).map ParentOp.dropParent
        ++ (N.drop (unchangedLen (currentBases O N) N)).map ParentOp.addParent := by
  have hshape : alignOps O N =
      ((currentBases O N).drop (unchangedLen (currentBases O N) N)).map ParentOp.dropParent
      ++ (N.drop (unchangedLen (currentBases O N) N)).map ParentOp.addParent := by
    simp only [alignOps]
    by_cases hE : (N.drop (unchangedLen (currentBases O N) N)).isEmpty
    · have hN : N.drop (unchangedLen (currentBases O N) N) = [] :=
        List.isEmpty_iff.mp hE
      have hC : (currentBases O N).drop (unchangedLen (currentBases O N) N) = [] := by
        refine align_shape (currentBases O N) N (odedup_nodup _ _) ?_ hN
        intro b hb
        have hmem := odedup_mem _ _ hb
        have := (List.mem_filter.mp hmem).2
        simpa using this
      rw [if_pos hE, hN, hC]
      simp
    · rw [if_neg hE]
  refine ⟨?_, hshape⟩
  intro hnd hON
  subst hON
  have hdrop : droppedBases O O = [] := by
    rw [droppedBases]
    have hf : O.filter (fun b => decide (b ∉ O)) = [] := by
      rw [List.filter_eq_nil_iff]
      intro a ha
      simp [ha]
    rw [hf]
    rfl
  have hcur : currentBases O O = O := by
    have hf : O.filter (fun b => decide (b ∈ O)) = O := by
      rw [List.filter_eq_self]
      intro a ha
      simp [ha]
    rw [currentBases, hf]
    exact odedup_eq_self O [] hnd (by simp)
  rw [base_delta_parent_ops, hdrop, hshape, hcur, unchangedLen_self,
    List.drop_length]
  simp

theorem C6_inheritance_alignment_witness :
    (["A", "B"] : List String).Nodup
    ∧ base_delta_parent_ops ["A", "B"] ["A", "B"] = [] :=
  ⟨by decide, (C6_inheritance_alignment ["A", "B"] ["A", "B"]).1 (by decide) rfl⟩

end BaseDelta

namespace Sched

theorem serializeList_eq_foldl :
    ∀ (cs : List PgCmd) (qs : List (Int × List PhysOp)),
      serializeList cs qs = (flattenOps cs).foldl addToQueues qs
  | [], qs => by rw [serializeList, flattenOps, List.foldl_nil]
  | .phys op :: rest, qs => by
      rw [serializeList, flattenOps, List.foldl_cons]
      exact serializeList_eq_foldl rest (addToQueues qs op)
  | .meta ops :: rest, qs => by
      rw [serializeList, flattenOps, List.foldl_append]
      rw [serializeList_eq_foldl ops qs, serializeList_eq_foldl rest _]
termination_by cs _ => sizeOf cs

theorem lookup_cons_self (k : Int) (b : List PhysOp) (es : List (Int × List PhysOp)) :
    List.lookup k ((k, b) :: es) = some b := by
  rw [List.lookup_cons]
  simp

theorem lookup_cons_ne {p k : Int} (b : List PhysOp) (es : List (Int × List PhysOp))
    (h : ¬ p = k) : List.lookup p ((k, b) :: es) = List.lookup p es := by
  rw [List.lookup_cons]
  have hb : (p == k) = false := beq_eq_false_iff_ne.mpr h
  rw [hb]

theorem bucket_cons_self (k : Int) (b : List PhysOp) (es : List (Int × List PhysOp)) :
    bucket ((k, b) :: es) k = b := by
  rw [bucket, lookup_cons_self]
  rfl

theorem bucket_cons_ne {p k : Int} (b : List PhysOp) (es : List (Int × List PhysOp))
    (h : ¬ p = k) : bucket ((k, b) :: es) p = bucket es p := by
  rw [bucket, lookup_cons_ne b es h, bucket]

theorem bucket_addToQueues (qs : List (Int × List PhysOp)) (op : PhysOp) (p : Int) :
    bucket (addToQueues qs op) p
      = if p = op.priority then bucket qs p ++ [op] else bucket qs p := by
  induction qs with
  | nil =>
      by_cases h : p = op.priority
      · subst h
        rw [if_pos rfl]
        simp only [addToQueues]
        rw [bucket_cons_self]
        rfl
      · rw [if_neg h]
        simp only [addToQueues]
        rw [bucket_cons_ne _ _ h]
  | cons e rest ih =>
      obtain ⟨k, q⟩ := e
      simp only [addToQueues]
      by_cases hk : k = op.priority
      · rw [if_pos hk]
        by_cases hp : p = k
        · subst hp
          rw [bucket_cons_self, if_pos hk, bucket_cons_self]
        · rw [bucket_cons_ne _ _ hp, bucket_cons_ne _ _ hp,
            if_neg (fun h => hp (h.trans hk.symm))]
      · rw [if_neg hk]
        by_cases hp : p = k
        · subst hp
          rw [bucket_cons_self, if_neg hk, bucket_cons_self]
        · rw [bucket_cons_ne _ _ hp, ih]
          by_cases hpo : p = op.priority
          · rw [if_pos hpo, if_pos hpo, bucket_cons_ne _ _ hp]
          · rw [if_neg hpo, if_neg hpo, bucket_cons_ne _ _ hp]

theorem mem_keys_addToQueues {x : Int} (qs : List (Int × List PhysOp)) (op : PhysOp) :
    x ∈ (addToQueues qs op).map Prod.fst → x ∈ qs.map Prod.fst ∨ x = op.priority := by
  induction qs with
  | nil =>
      intro h
      simp [addToQueues] at h
      exact Or.inr h
  | cons e rest ih =>
      obtain ⟨k, q⟩ := e
      simp only [addToQueues]
      by_cases hk : k = op.priority
      · rw [if_pos hk]
        intro h
        simp only [List.map_cons, List.mem_cons] at h ⊢
        tauto
      · rw [if_neg hk]
        intro h
        simp only [List.map_cons, List.mem_cons] at h ⊢
        rcases h with h | h
        · exact Or.inl (Or.inl h)
        · rcases ih h with h1 | h1
          · exact Or.inl (Or.inr h1)
          · exact Or.inr h1

theorem keysNodup_addToQueues (qs : List (Int × List PhysOp)) (op : PhysOp)
    (h : (qs.map Prod.fst).Nodup) : ((addToQueues qs op).map Prod.fst).Nodup := by
  induction qs with
  | nil => simp [addToQueues]
  | cons e rest ih =>
      obtain ⟨k, q⟩ := e
      simp only [addToQueues]
      by_cases hk : k = op.priority
      · rw [if_pos hk]
        simpa using h
      · rw [if_neg hk]
        simp only [List.map_cons, List.nodup_cons] at h ⊢
        refine ⟨?_, ih h.2⟩
        intro hmem
        rcases mem_keys_addToQueues rest op hmem with h1 | h1
        · exact h.1 h1
        · exact hk h1

theorem qwf_addToQueues (qs : List (Int × List PhysOp)) (op : PhysOp)
    (h : QWF qs) : QWF (addToQueues qs op) := by
  induction qs with
  | nil =>
      intro e he opx hop
      simp only [addToQueues, List.mem_singleton] at he
      subst he
      simp only [List.mem_singleton] at hop
      subst hop
      rfl
  | cons f rest ih =>
      obtain ⟨k, q⟩ := f
      simp only [addToQueues]
      by_cases hk : k = op.priority
      · rw [if_pos hk]
        intro e he opx hop
        rcases List.mem_cons.mp he with rfl | hmem
        · rcases List.mem_append.mp hop with h1 | h1
          · exact h (k, q) (List.mem_cons_self _ _) opx h1
          · simp only [List.mem_singleton] at h1
            subst h1
            exact hk.symm
        · exact h e (List.mem_cons_of_mem _ hmem) opx hop
      · rw [if_neg hk]
        intro e he opx hop
        rcases List.mem_cons.mp he with rfl | hmem
        · exact h (k, q) (List.mem_cons_self _ _) opx hop
        · exact ih (fun e1 he1 => h e1 (List.mem_cons_of_mem _ he1)) e hmem opx hop

theorem bucket_foldl (ops : List PhysOp) :
    ∀ (qs : List (Int × List PhysOp)) (p : Int),
      bucket (ops.foldl addToQueues qs) p
        = bucket qs p ++ ops.filter (fun o => o.priority == p) := by
  induction ops with
  | nil =>
      intro qs p
      simp
  | cons o rest ih =>
      intro qs p
      rw [List.foldl_cons, ih, bucket_addToQueues]
      by_cases hp : p = o.priority
      · rw [if_pos hp, List.filter_cons, if_pos (by simp [hp]), List.append_assoc]
        rfl
      · rw [if_neg hp, List.filter_cons, if_neg (by simp; exact fun h => hp h.symm)]

theorem keysNodup_foldl (ops : List PhysOp) :
    ∀ qs, (qs.map Prod.fst).Nodup → ((ops.foldl addToQueues qs).map Prod.fst).Nodup := by
  induction ops with
  | nil => intro qs h; exact h
  | cons o rest ih => intro qs h; exact ih _ (keysNodup_addToQueues qs o h)

theorem qwf_foldl (ops : List PhysOp) :
    ∀ qs, QWF qs → QWF (ops.foldl addToQueues qs) := by
  induction ops with
  | nil => intro qs h; exact h
  | cons o rest ih => intro qs h; exact ih _ (qwf_addToQueues qs o h)

theorem pairwise_flatMap_of_sorted :
    ∀ (S : List (Int × List PhysOp)), QWF S →
      S.Pairwise (fun a b => a.1 ≤ b.1) →
      (S.flatMap (fun e => e.2)).Pairwise (fun a b => a.priority ≤ b.priority) := by
  intro S
  induction S with
  | nil => intro _ _; simp
  | cons e rest ih =>
      intro hwf hp
      obtain ⟨k, q⟩ := e
      rw [List.flatMap_cons, List.pairwise_append]
      refine ⟨?_, ?_, ?_⟩
      · refine List.pairwise_of_forall_mem_list ?_
        intro a ha b hb
        have h1 := hwf (k, q) (List.mem_cons_self _ _) a ha
        have h2 := hwf (k, q) (List.mem_cons_self _ _) b hb
        rw [h1, h2]
      · exact ih (fun e2 he2 => hwf e2 (List.mem_cons_of_mem _ he2))
          (List.Pairwise.of_cons hp)
      · intro a ha b hb
        have h1 := hwf (k, q) (List.mem_cons_self _ _) a ha
        rcases List.mem_flatMap.mp hb with ⟨e2, he2, hb2⟩
        have h2 := hwf e2 (List.mem_cons_of_mem _ he2) b hb2
        have h3 : k ≤ e2.1 := (List.pairwise_cons.mp hp).1 e2 he2
        rw [h1, h2]
        exact h3

theorem filter_flatMap_eq_bucket :
    ∀ (S : List (Int × List PhysOp)), QWF S → (S.map Prod.fst).Nodup →
      ∀ p : Int, (S.flatMap (fun e => e.2)).filter (fun o => o.priority == p)
        = bucket S p := by
  intro S
  induction S with
  | nil => intro _ _ p; simp [bucket]
  | cons e rest ih =>
      intro hwf hnd p
      obtain ⟨k, q⟩ := e
      rw [List.flatMap_cons, List.filter_append]
      by_cases hk : k = p
      · subst hk
        have hq : q.filter (fun o => o.priority == k) = q := by
          rw [List.filter_eq_self]
          intro a ha
          simp [hwf (k, q) (List.mem_cons_self _ _) a ha]
        have hrest : (rest.flatMap (fun e => e.2)).filter (fun o => o.priority == k) = [] := by
          rw [List.filter_eq_nil_iff]
          intro a ha
          rcases List.mem_flatMap.mp ha with ⟨e2, he2, ha2⟩
          have hpr := hwf e2 (List.mem_cons_of_mem _ he2) a ha2
          have hkey : e2.1 ∈ rest.map Prod.fst := List.mem_map_of_mem Prod.fst he2
          have hne : e2.1 ≠ k := by
            intro heq
            exact (List.nodup_cons.mp (by simpa using hnd)).1 (heq ▸ hkey)
          simp [hpr, hne]
        rw [hq, hrest, List.append_nil, bucket_cons_self]
      · have hq : q.filter (fun o => o.priority == p) = [] := by
          rw [List.filter_eq_nil_iff]
          intro a ha
          simp [hwf (k, q) (List.mem_cons_self _ _) a ha, hk]
        rw [hq, List.nil_append,
          ih (fun e2 he2 => hwf e2 (List.mem_cons_of_mem _ he2))
            ((List.nodup_cons.mp (by simpa using hnd)).2) p]
        have hpk : ¬ p = k := fun h => hk h.symm
        rw [bucket_cons_ne _ _ hpk]

theorem mem_of_lookup_eq_some' {L : List (Int × List PhysOp)} {p : Int} {q : List PhysOp}
    (h : L.lookup p = some q) : (p, q) ∈ L := by
  induction L with
  | nil => simp [List.lookup] at h
  | cons e rest ih =>
      obtain ⟨k, v⟩ := e
      by_cases hk : p = k
      · subst hk
        rw [lookup_cons_self] at h
        injection h with h
        subst h
        exact List.mem_cons_self _ _
      · rw [lookup_cons_ne _ _ hk] at h
        exact List.mem_cons_of_mem _ (ih h)

theorem lookup_eq_none_iff_keys (L : List (Int × List PhysOp)) (p : Int) :
    L.lookup p = none ↔ p ∉ L.map Prod.fst := by
  induction L with
  | nil => simp
  | cons e rest ih =>
      obtain ⟨k, q⟩ := e
      by_cases hk : p = k
      · subst hk
        rw [lookup_cons_self]
        simp
      · rw [lookup_cons_ne _ _ hk, ih]
        simp [hk]

theorem lookup_eq_some_of_mem (L : List (Int × List PhysOp)) (p : Int) (q : List PhysOp)
    (hnd : (L.map Prod.fst).Nodup) (hmem : (p, q) ∈ L) : L.lookup p = some q := by
  induction L with
  | nil => simp at hmem
  | cons e rest ih =>
      obtain ⟨k, v⟩ := e
      rcases List.mem_cons.mp hmem with he | hmem2
      · rw [Prod.mk.injEq] at he
        obtain ⟨h1, h2⟩ := he
        subst h1
        subst h2
        exact lookup_cons_self _ _ _
      · have hk : p ≠ k := by
          intro h
          subst h
          have hkey : p ∈ rest.map Prod.fst := List.mem_map_of_mem Prod.fst hmem2
          exact (List.nodup_cons.mp (by simpa using hnd)).1 hkey
        rw [lookup_cons_ne _ _ hk]
        exact ih (List.nodup_cons.mp (by simpa using hnd)).2 hmem2

theorem bucket_eq_of_perm (S Q : List (Int × List PhysOp)) (hperm : S.Perm Q)
    (hndQ : (Q.map Prod.fst).Nodup) : ∀ p, bucket S p = bucket Q p := by
  intro p
  unfold bucket
  cases hcs : S.lookup p with
  | none =>
      have hnone : Q.lookup p = none := by
        rw [lookup_eq_none_iff_keys] at hcs ⊢
        intro hmem
        exact hcs (((hperm.map Prod.fst).mem_iff).mpr hmem)
      rw [hnone]
  | some q =>
      have hmem : (p, q) ∈ Q := hperm.subset (mem_of_lookup_eq_some' hcs)
      rw [lookup_eq_some_of_mem Q p q hndQ hmem]

/-- C1: executing a realm-level delta through `serialize_ops` runs every
physical operation collected recursively from the root command and its
descendants (the serialized list is a permutation of the depth-first
discovery list), in ascending priority order (pairwise, so for buckets
P1 < P2 every P1 operation precedes every P2 operation), and within one
priority bucket the operations keep their original discovery order (the
restriction of the serialized list to any priority equals the
restriction of the discovery list). -/
theorem C1_realm_priority_schedule (root : List PgCmd) :
    (serialize_ops root).Perm (flattenOps root)
    ∧ (serialize_ops root).Pairwise (fun a b => a.priority ≤ b.priority)
    ∧ ∀ p : Int, (serialize_ops root).filter (fun o => o.priority == p)
        = (flattenOps root).filter (fun o => o.priority == p) := by
  have hQdef : serializeList root [] = (flattenOps root).foldl addToQueues [] :=
    serializeList_eq_foldl root []
  have hwfQ : QWF (serializeList root []) := by
    rw [hQdef]
    refine qwf_foldl _ _ ?_
    intro e he
    simp at he
  have hndQ : ((serializeList root []).map Prod.fst).Nodup := by
    rw [hQdef]
    exact keysNodup_foldl _ _ (by simp)
  have hbQ : ∀ p, bucket (serializeList root []) p
      = (flattenOps root).filter (fun o => o.priority == p) := by
    intro p
    rw [hQdef, bucket_foldl]
    simp [bucket]
  have hperm : ((serializeList root []).mergeSort
      (fun a b => decide (a.1 ≤ b.1))).Perm (serializeList root []) :=
    List.mergeSort_perm _ _
  have hwfS : QWF ((serializeList root []).mergeSort (fun a b => decide (a.1 ≤ b.1))) := by
    intro e he
    exact hwfQ e (hperm.mem_iff.mp he)
  have hndS : (((serializeList root []).mergeSort
      (fun a b => decide (a.1 ≤ b.1))).map Prod.fst).Nodup :=
    ((hperm.map Prod.fst).nodup_iff).mpr hndQ
  have htrans : ∀ (a b c : Int × List PhysOp),
      decide (a.1 ≤ b.1) → decide (b.1 ≤ c.1) → decide (a.1 ≤ c.1) := by
    intro a b c hab hbc
    simp only [decide_eq_true_eq] at hab hbc ⊢
    omega
  have htotal : ∀ (a b : Int × List PhysOp),
      decide (a.1 ≤ b.1) || decide (b.1 ≤ a.1) := by
    intro a b
    rcases Int.le_total a.1 b.1 with h | h <;> simp [h]
  have hsort0 := List.sorted_mergeSort htrans htotal (serializeList root [])
  have hsortS : ((serializeList root []).mergeSort
      (fun a b => decide (a.1 ≤ b.1))).Pairwise (fun a b => a.1 ≤ b.1) :=
    hsort0.imp (fun h => by simpa using h)
  have hser : serialize_ops root
      = ((serializeList root []).mergeSort
          (fun a b => decide (a.1 ≤ b.1))).flatMap (fun e => e.2) := rfl
  have hfilt : ∀ p : Int, (serialize_ops root).filter (fun o => o.priority == p)
      = (flattenOps root).filter (fun o => o.priority == p) := by
    intro p
    rw [hser, filter_flatMap_eq_bucket _ hwfS hndS p,
      bucket_eq_of_perm _ _ hperm hndQ p, hbQ p]
  refine ⟨?_, ?_, hfilt⟩
  · rw [List.perm_iff_count]
    intro a
    have h1 : List.count a ((serialize_ops root).filter (fun o => o.priority == a.priority))
        = List.count a (serialize_ops root) := by
      simp
    have h2 : List.count a ((flattenOps root).filter (fun o => o.priority == a.priority))
        = List.count a (flattenOps root) := by
      simp
    rw [← h1, hfilt, h2]
  · rw [hser]
    exact pairwise_flatMap_of_sorted _ hwfS hsortS

end Sched

namespace MappingIdx

/-- C8 counterexample: with one existing mapping index idx1 of
cardinality one-to-many covering link lnk, a delta carrying three alter
commands for lnk (to many-to-one, back to one-to-many, then to
one-to-one) makes the reconciliation raise (the `ValueError` of
`queue[already_processed].remove(item)` on an item that was never
queued, since the second alter returned the link to the cardinality of
its existing index), instead of producing index membership keyed on the
last cardinality one-to-one as the claim states. -/
theorem C8_counterexample_three_alters :
    applyLink [("idx1", (.oneToMany, ["lnk"]))] "tbl"
        [.alterLink ⟨"lnk", .manyToOne, "lnk"⟩,
         .alterLink ⟨"lnk", .oneToMany, "lnk"⟩,
         .alterLink ⟨"lnk", .oneToOne, "lnk"⟩]
      = Except.error () := by
  rfl

theorem filter_eq_single {S : List String} {a : String} (hnd : S.Nodup) (ha : a ∈ S) :
    S.filter (fun x => decide (x = a)) = [a] := by
  induction S with
  | nil => simp at ha
  | cons b bs ih =>
      rcases List.mem_cons.mp ha with h | hmem
      · subst h
        rw [List.filter_cons, if_pos (by simp)]
        have hrest : bs.filter (fun x => decide (x = a)) = [] := by
          rw [List.filter_eq_nil_iff]
          intro x hx
          simp only [decide_eq_true_eq]
          intro he
          exact (List.nodup_cons.mp hnd).1 (he ▸ hx)
        rw [hrest]
      · have hb : ¬ b = a := by
          intro he
          exact (List.nodup_cons.mp hnd).1 (he ▸ hmem)
        rw [List.filter_cons, if_neg (by simpa using hb)]
        exact ih (List.nodup_cons.mp hnd).2 hmem

theorem existingFor_single (exM : Mapping) (S : List LinkName) (idx Lold : String)
    (hnd : S.Nodup) (hS : Lold ∈ S) :
    existingFor [(idx, (exM, S))] Lold = [idx] := by
  rw [existingFor, groupPairs]
  simp only [List.flatMap_cons, List.flatMap_nil, List.append_nil, List.filter_map,
    List.map_map]
  have hcomp : ((fun p : LinkName × IdxName => decide (p.1 = Lold)) ∘ fun ln => (ln, idx))
      = fun ln => decide (ln = Lold) := rfl
  rw [hcomp, filter_eq_single hnd hS]
  rfl

theorem lookupIdx_single (idx : IdxName) (pr : Mapping × List LinkName) :
    lookupIdx [(idx, pr)] idx = some pr := by
  simp [lookupIdx, List.lookup_cons]

theorem procOps_first (exM : Mapping) (S : List LinkName) (idx L Lold : String)
    (hnd : S.Nodup) (hS : Lold ∈ S) (m : Mapping) :
    procStep [(idx, (exM, S))] initState (mkAlter L Lold m)
      = .ok (invState exM L Lold idx m) := by
  simp only [mkAlter, procStep, initState]
  rw [existingFor_single exM S idx Lold hnd hS]
  simp only [lookupIdx_single, List.lookup_nil, alterQueueStep, dictSetP]
  by_cases hm : m = exM
  · have hw : decide (exM ≠ m) = false := by simp [hm]
    simp only [hw, Bool.false_eq_true, if_false]
    simp [invState, hm]
  · have hw : decide (exM ≠ m) = true := by
      simp only [decide_eq_true_eq]
      exact fun h => hm h.symm
    simp only [hw, if_true]
    simp [invState, hm]

theorem qRemove_qAppend_init (m : Mapping) (it : Item) :
    qRemove (qAppend initQueue m it) m it = some initQueue := by
  cases m <;>
    simp [qRemove, qAppend, qSet, qGet, initQueue, removeFirst, List.lookup]

theorem procStep_from_inv (exM : Mapping) (S : List LinkName) (idx L Lold : String)
    (hnd : S.Nodup) (hS : Lold ∈ S) (m0 m : Mapping)
    (h : m0 = m ∨ m0 ≠ exM) :
    procStep [(idx, (exM, S))] (invState exM L Lold idx m0) (mkAlter L Lold m)
      = .ok (invState exM L Lold idx m) := by
  simp only [mkAlter, procStep, invState]
  rw [existingFor_single exM S idx Lold hnd hS]
  have hal : List.lookup L [(L, m0)] = some m0 := by simp [List.lookup_cons]
  simp only [lookupIdx_single, hal, alterQueueStep, dictSetP]
  by_cases hmm : m0 = m
  · subst hmm
    simp
  · have hm0 : m0 ≠ exM := by
      rcases h with h | h
      · exact absurd h hmm
      · exact h
    rw [if_neg hm0, if_neg hmm, qRemove_qAppend_init m0 (L, some Lold, some [idx])]
    by_cases hm : m = exM
    · have hw : decide (exM ≠ m) = false := by simp [hm]
      simp only [hw, Bool.false_eq_true, if_false]
      simp [hm]
    · have hw : decide (exM ≠ m) = true := by
        simp only [decide_eq_true_eq]
        exact fun hh => hm hh.symm
      simp only [hw, if_true]
      simp [hm]

theorem steps_from_inv (exM : Mapping) (S : List LinkName) (idx L Lold : String)
    (hnd : S.Nodup) (hS : Lold ∈ S) :
    ∀ (rest : List Mapping) (m0 : Mapping),
      (rest = [] ∨ m0 ≠ exM) → (∀ m ∈ rest.dropLast, m ≠ exM) →
      List.foldlM (procStep [(idx, (exM, S))]) (invState exM L Lold idx m0)
          (rest.map (mkAlter L Lold))
        = .ok (invState exM L Lold idx (rest.getLastD m0)) := by
  intro rest
  induction rest with
  | nil => intro m0 _ _; rfl
  | cons m rest2 ih =>
      intro m0 h hmid
      have hm0 : m0 = m ∨ m0 ≠ exM := by
        rcases h with h | h
        · exact absurd h (List.cons_ne_nil m rest2)
        · exact Or.inr h
      rw [List.map_cons, List.foldlM_cons,
        procStep_from_inv exM S idx L Lold hnd hS m0 m hm0, List.getLastD_cons]
      have hnext : rest2 = [] ∨ m ≠ exM := by
        cases rest2 with
        | nil => exact Or.inl rfl
        | cons r rs =>
            refine Or.inr (hmid m ?_)
            rw [List.dropLast_cons₂]
            exact List.mem_cons_self _ _
      have hmid2 : ∀ x ∈ rest2.dropLast, x ≠ exM := by
        intro x hx
        refine hmid x ?_
        cases rest2 with
        | nil => simp at hx
        | cons r rs =>
            rw [List.dropLast_cons₂]
            exact List.mem_cons_of_mem _ hx
      exact ih m hnext hmid2

theorem emitBucket_nil (ex : ExistingIdx) (t : String) (m : Mapping) :
    emitAlterBucket ex t m [] = .ok [] := rfl

theorem emitBucket_single (exM : Mapping) (S : List LinkName) (idx L Lold : String)
    (t : String) (m : Mapping) :
    emitAlterBucket [(idx, (exM, S))] t m [(L, some Lold, some [idx])]
      = .ok [MIOp.createMapping t m [L],
          if (S.dedup.filter (fun x => decide (x ≠ Lold))).isEmpty
          then MIOp.dropMapping t [idx] m
          else MIOp.alterMapping t [idx] m
              (S.dedup.filter (fun x => decide (x ≠ Lold)))] := by
  simp only [emitAlterBucket, alterFold, List.foldlM_cons, List.foldlM_nil,
    alterItemStep, lookupIdx_single, altGet, List.lookup_nil, altSet]
  simp

theorem emitAll_qAppend (exM : Mapping) (S : List LinkName) (idx L Lold : String)
    (t : String) (m : Mapping) :
    emitAlterAll [(idx, (exM, S))] t
        (qAppend initQueue m (L, some Lold, some [idx]))
      = .ok [MIOp.createMapping t m [L],
          if (S.dedup.filter (fun x => decide (x ≠ Lold))).isEmpty
          then MIOp.dropMapping t [idx] m
          else MIOp.alterMapping t [idx] m
              (S.dedup.filter (fun x => decide (x ≠ Lold)))] := by
  cases m
  case oneToOne =>
      rw [show qAppend initQueue Mapping.oneToOne (L, some Lold, some [idx])
          = [(Mapping.oneToOne, [(L, some Lold, some [idx])]), (Mapping.oneToMany, []),
             (Mapping.manyToOne, []), (Mapping.manyToMany, [])] from rfl]
      simp only [emitAlterAll, emitBucket_nil, emitBucket_single]
      simp
  case oneToMany =>
      rw [show qAppend initQueue Mapping.oneToMany (L, some Lold, some [idx])
          = [(Mapping.oneToOne, []), (Mapping.oneToMany, [(L, some Lold, some [idx])]),
             (Mapping.manyToOne, []), (Mapping.manyToMany, [])] from rfl]
      simp only [emitAlterAll, emitBucket_nil, emitBucket_single]
      simp
  case manyToOne =>
      rw [show qAppend initQueue Mapping.manyToOne (L, some Lold, some [idx])
          = [(Mapping.oneToOne, []), (Mapping.oneToMany, []),
             (Mapping.manyToOne, [(L, some Lold, some [idx])]), (Mapping.manyToMany, [])] from rfl]
      simp only [emitAlterAll, emitBucket_nil, emitBucket_single]
      simp
  case manyToMany =>
      rw [show qAppend initQueue Mapping.manyToMany (L, some Lold, some [idx])
          = [(Mapping.oneToOne, []), (Mapping.oneToMany, []),
             (Mapping.manyToOne, []), (Mapping.manyToMany, [(L, some Lold, some [idx])])] from rfl]
      simp only [emitAlterAll, emitBucket_nil, emitBucket_single]
      simp

/-- C8 amended: for a link with a single existing mapping index of
cardinality exM covering it (members S), a chain of alter commands for
that link in one delta, none of which before the last returns the link
to cardinality exM, yields: nothing when the last cardinality seen is
exM again; otherwise a create of the mapping index for the last
cardinality covering the link, together with a drop of the old index
(when the link was its only member) or a drop-and-recreate without the
link (when other members remain) - i.e. membership is keyed on the last
cardinality seen and the link is removed from its old index.  When an
intermediate alter does return the link to the existing cardinality and
a later alter changes it again, the code instead raises (see the
counterexample). -/
theorem C8_amended_last_cardinality (exM : Mapping) (S : List LinkName)
    (idx L Lold : String) (m1 : Mapping) (ms : List Mapping)
    (hnd : S.Nodup) (hS : Lold ∈ S)
    (hmid : ∀ m ∈ (m1 :: ms).dropLast, m ≠ exM) :
    applyLink [(idx, (exM, S))] "tbl" ((m1 :: ms).map (mkAlter L Lold))
      = .ok (if ms.getLastD m1 = exM then []
          else [MIOp.createMapping "tbl" (ms.getLastD m1) [L],
            if (S.filter (fun x => decide (x ≠ Lold))).isEmpty
            then MIOp.dropMapping "tbl" [idx] (ms.getLastD m1)
            else MIOp.alterMapping "tbl" [idx] (ms.getLastD m1)
                (S.filter (fun x => decide (x ≠ Lold)))]) := by
  have h1 : ms = [] ∨ m1 ≠ exM := by
    cases ms with
    | nil => exact Or.inl rfl
    | cons r rs =>
        refine Or.inr (hmid m1 ?_)
        rw [List.dropLast_cons₂]
        exact List.mem_cons_self _ _
  have h2 : ∀ m ∈ ms.dropLast, m ≠ exM := by
    intro x hx
    refine hmid x ?_
    cases ms with
    | nil => simp at hx
    | cons r rs =>
        rw [List.dropLast_cons₂]
        exact List.mem_cons_of_mem _ hx
  have hproc : procOps [(idx, (exM, S))] ((m1 :: ms).map (mkAlter L Lold))
      = .ok (invState exM L Lold idx (ms.getLastD m1)) := by
    rw [procOps, List.map_cons, List.foldlM_cons,
      procOps_first exM S idx L Lold hnd hS m1]
    exact steps_from_inv exM S idx L Lold hnd hS ms m1 h1 h2
  rw [applyLink, hproc]
  by_cases hE : ms.getLastD m1 = exM
  · rw [if_pos hE]
    simp only [invState, if_pos hE]
    rfl
  · rw [if_neg hE]
    simp only [invState, if_neg hE]
    rw [emitAll_qAppend exM S idx L Lold "tbl" (ms.getLastD m1),
      List.Nodup.dedup hnd]
    rfl

theorem C8_amended_last_cardinality_witness :
    (["lnk", "other"] : List LinkName).Nodup
    ∧ "lnk" ∈ (["lnk", "other"] : List LinkName)
    ∧ (∀ m ∈ ([Mapping.manyToOne] : List Mapping).dropLast, m ≠ Mapping.oneToMany)
    ∧ applyLink [("idx1", (Mapping.oneToMany, ["lnk", "other"]))] "tbl"
        (([Mapping.manyToOne] : List Mapping).map (mkAlter "lnk" "lnk"))
      = .ok (if ([] : List Mapping).getLastD Mapping.manyToOne = Mapping.oneToMany then []
          else [MIOp.createMapping "tbl" (([] : List Mapping).getLastD Mapping.manyToOne) ["lnk"],
            if ((["lnk", "other"] : List LinkName).filter
                  (fun x => decide (x ≠ "lnk"))).isEmpty
            then MIOp.dropMapping "tbl" ["idx1"] (([] : List Mapping).getLastD Mapping.manyToOne)
            else MIOp.alterMapping "tbl" ["idx1"] (([] : List Mapping).getLastD Mapping.manyToOne)
                ((["lnk", "other"] : List LinkName).filter (fun x => decide (x ≠ "lnk")))]) :=
  ⟨by decide, by decide, by decide,
    C8_amended_last_cardinality Mapping.oneToMany ["lnk", "other"] "idx1" "lnk" "lnk"
      Mapping.manyToOne [] (by decide) (by decide) (by decide)⟩

end MappingIdx
